import Mathlib

/-!
# brAutoprice: the repricing rule, the market-price resolver and the main loop

Shallow embedding of `brAutoprice.go`.

* Prices are `float64` in the source and IEEE 754 binary64 values here
  (`F64`): signed zeros, subnormals, infinities and NaN, with every operation
  giving the exact result rounded to nearest, ties to even.  Each operation of
  the source is rounded on its own (no fused multiply-add).  A decimal literal
  such as `0.0035` is the binary64 value nearest to it, as the Go compiler and
  `strconv.ParseFloat` give it.
* The marketplace client (`github.com/toorop/go-betarigs`) is not part of the
  program: its four calls are taken as parameters (`Betarigs`), one record of
  functions per pass of the loop, so that every combination of successes and
  failures is covered.
* Terminal output and waiting are recorded as an ordered list of `Event`s.
  Log lines are kept as structured values (`Line`) instead of formatted
  strings; the timestamp prefix is dropped.
-/

namespace BrAutoprice

/-! ## binary64 -/

/-- A `float64`.  `fin neg m x` is the finite value `(-1)^neg * m * 2^(x - 1074)`;
the binary64 values are those with `m < 2^53`, `x ≤ 2045`, and `2^52 ≤ m` or
`x = 0` (see `F64.isBinary64`). -/
inductive F64
  /-- Not a number. -/
  | nan
  /-- Plus or minus infinity. -/
  | inf (neg : Bool)
  /-- The finite value `(-1)^neg * m * 2^(x - 1074)`. -/
  | fin (neg : Bool) (m : Nat) (x : Nat)
  deriving DecidableEq

namespace F64

/-- The position of the leading bit of `n` (the floor of its base-2
logarithm), for `0 < n < 2 ^ (2 ^ k)`. -/
def log2 : Nat → Nat → Nat
  | 0, _ => 0
  | k + 1, n => if n < 2 ^ (2 ^ k) then log2 k n else 2 ^ k + log2 k (n / 2 ^ (2 ^ k))

/-- Round to nearest, ties to even: the binary64 value of sign `neg` nearest
to `n / d * 2^(-1074)`, for `0 < d`.  The exponent `x` is chosen so that the
mantissa has 53 bits (or `x = 0`, subnormal), the mantissa is the quotient
rounded on the remainder, and a value of `2^1024` or more overflows to
infinity.  Every quotient of binary64 arithmetic is below `2 ^ (2 ^ 16)`. -/
def round (neg : Bool) (n d : Nat) : F64 :=
  if n = 0 then .fin neg 0 0
  else
    let x := log2 16 (n / d) - 52
    let q := n / (d * 2 ^ x)
    let r := n % (d * 2 ^ x)
    let m := if d * 2 ^ x < 2 * r ∨ (2 * r = d * 2 ^ x ∧ q % 2 = 1) then q + 1 else q
    if m = 2 ^ 53 then
      (if 2045 < x + 1 then .inf neg else .fin neg (2 ^ 52) (x + 1))
    else
      (if 2045 < x then .inf neg else .fin neg m x)

/-- The finite value `fin neg m x` in units of `2^(-1074)`. -/
def scaled (neg : Bool) (m x : Nat) : Int :=
  if neg then -((m * 2 ^ x : Nat) : Int) else ((m * 2 ^ x : Nat) : Int)

/-- Go `a < b` on `float64`: false when an operand is NaN. -/
def lt : F64 → F64 → Bool
  | .nan, _ => false
  | _, .nan => false
  | .inf n1, .inf n2 => n1 && !n2
  | .inf n1, .fin _ _ _ => n1
  | .fin _ _ _, .inf n2 => !n2
  | .fin s1 m1 x1, .fin s2 m2 x2 => decide (scaled s1 m1 x1 < scaled s2 m2 x2)

/-- Go `a == b` on `float64`: false when an operand is NaN, true on `+0`
and `-0`. -/
def eq : F64 → F64 → Bool
  | .nan, _ => false
  | _, .nan => false
  | .inf n1, .inf n2 => n1 == n2
  | .inf _, .fin _ _ _ => false
  | .fin _ _ _, .inf _ => false
  | .fin s1 m1 x1, .fin s2 m2 x2 => decide (scaled s1 m1 x1 = scaled s2 m2 x2)

/-- Go `a != b` on `float64`: the negation of `a == b`. -/
def ne (a b : F64) : Bool := !(eq a b)

/-- Go `a <= b` on `float64`. -/
def le (a b : F64) : Bool := lt a b || eq a b

/-- Go unary `-a`. -/
def neg : F64 → F64
  | .nan => .nan
  | .inf n => .inf (!n)
  | .fin s m x => .fin (!s) m x

/-- Go `math.Abs(a)`. -/
def abs : F64 → F64
  | .nan => .nan
  | .inf _ => .inf false
  | .fin _ m x => .fin false m x

/-- Go `a + b` on `float64`.  An exact sum of zero is `-0` when both operands
are negative and `+0` otherwise. -/
def add : F64 → F64 → F64
  | .nan, _ => .nan
  | _, .nan => .nan
  | .inf n1, .inf n2 => if n1 = n2 then .inf n1 else .nan
  | .inf n1, .fin _ _ _ => .inf n1
  | .fin _ _ _, .inf n2 => .inf n2
  | .fin s1 m1 x1, .fin s2 m2 x2 =>
    if scaled s1 m1 x1 + scaled s2 m2 x2 = 0 then .fin (s1 && s2) 0 0
    else round (decide (scaled s1 m1 x1 + scaled s2 m2 x2 < 0))
      (scaled s1 m1 x1 + scaled s2 m2 x2).natAbs 1

/-- Go `a - b` on `float64`. -/
def sub (a b : F64) : F64 := add a (neg b)

/-- Go `a * b` on `float64`. -/
def mul : F64 → F64 → F64
  | .nan, _ => .nan
  | _, .nan => .nan
  | .inf n1, .inf n2 => .inf (n1 != n2)
  | .inf n1, .fin s2 m2 _ => if m2 = 0 then .nan else .inf (n1 != s2)
  | .fin s1 m1 _, .inf n2 => if m1 = 0 then .nan else .inf (s1 != n2)
  | .fin s1 m1 x1, .fin s2 m2 x2 => round (s1 != s2) (m1 * m2 * 2 ^ (x1 + x2)) (2 ^ 1074)

/-- Go `a / b` on `float64`. -/
def div : F64 → F64 → F64
  | .nan, _ => .nan
  | _, .nan => .nan
  | .inf _, .inf _ => .nan
  | .inf n1, .fin s2 _ _ => .inf (n1 != s2)
  | .fin s1 _ _, .inf n2 => .fin (s1 != n2) 0 0
  | .fin s1 m1 x1, .fin s2 m2 x2 =>
    if m2 = 0 then (if m1 = 0 then .nan else .inf (s1 != s2))
    else round (s1 != s2) (m1 * 2 ^ x1 * 2 ^ 1074) (m2 * 2 ^ x2)

/-- The `float64` of a natural-number constant. -/
def ofNat (n : Nat) : F64 := round false (n * 2 ^ 1074) 1

/-- The `float64` of the decimal literal `mantissa * 10^(± decimalExponent)`. -/
def ofScientific (mantissa : Nat) (exponentSign : Bool) (decimalExponent : Nat) : F64 :=
  if exponentSign then round false (mantissa * 2 ^ 1074) (10 ^ decimalExponent)
  else round false (mantissa * 10 ^ decimalExponent * 2 ^ 1074) 1

/-- The value is one of the 2^64 bit patterns of binary64: NaN, an infinity,
or a finite value with a 53-bit mantissa that is normal or subnormal. -/
def isBinary64 : F64 → Bool
  | .nan => true
  | .inf _ => true
  | .fin _ m x => decide (m < 2 ^ 53) && decide (x ≤ 2045) && (decide (2 ^ 52 ≤ m) || decide (x = 0))

end F64

instance : OfNat F64 n := ⟨F64.ofNat n⟩

instance : OfScientific F64 := ⟨F64.ofScientific⟩

instance : Add F64 := ⟨F64.add⟩

instance : Sub F64 := ⟨F64.sub⟩

instance : Mul F64 := ⟨F64.mul⟩

instance : Div F64 := ⟨F64.div⟩

instance : Neg F64 := ⟨F64.neg⟩

instance : LT F64 := ⟨fun a b => F64.lt a b = true⟩

instance : LE F64 := ⟨fun a b => F64.le a b = true⟩

instance (a b : F64) : Decidable (a < b) :=
  inferInstanceAs (Decidable (F64.lt a b = true))

instance (a b : F64) : Decidable (a ≤ b) :=
  inferInstanceAs (Decidable (F64.le a b = true))

/-! ## Constants -/

/-- Source: `mailLoopDuration = 30` (seconds, used in `time.Sleep`). -/
def mailLoopDuration : Nat := 30

/-! ## Data of the marketplace client -/

/-- The fields of `betarigs.Rig` the program reads: `Id`,
`Price.PerSpeedUnit.Value`, `Price.PerSpeedUnit.Unit`, `Algorithm.Id`. -/
structure Rig where
  Id : Nat
  Value : F64
  Unit : String
  AlgorithmId : Nat
  deriving DecidableEq

/-- The field of `betarigs.Algorithm` the program reads: `MarketPrice.Unit`. -/
structure Algorithm where
  MarketPriceUnit : String
  deriving DecidableEq

/-- The four calls of the marketplace client, as the results they give during
one pass.  `UpdateRigPricePerSpeedUnit` returns `(success, err)`. -/
structure Betarigs where
  GetRig : Nat → Except String Rig
  GetAlgorithm : Nat → Except String Algorithm
  GetRigs : Nat → String → Nat → Except String (List Rig)
  UpdateRigPricePerSpeedUnit : Nat → F64 → Bool × Option String

/-- Go conversion `uint32(x)` of an `int`. -/
def uint32 (x : Int) : Nat := (x % 4294967296).toNat

/-! ## Display -/

/-- One line of the display.  Each constructor of a body line stands for one
`fmt.Sprintf` of the main loop (its timestamp left out). -/
inductive Line
  /-- A header or footer line, or the empty separator line. -/
  | text (s : String)
  /-- Source line 162: `ERR: Unable to fetch Rig lgoritm for rig %d. %v`. -/
  | errRig (rigId : Int) (err : String)
  /-- Source line 167: `Current rig price: %f %s`. -/
  | currentRigPrice (value : F64) (unit : String)
  /-- Source line 171: `ERR: Unable to fetch Algoritm %d. %v`. -/
  | errAlgorithm (algoId : Nat) (err : String)
  /-- Source line 178: `ERR: Unable to get Market Price. %v`. -/
  | errMarketPrice (err : String)
  /-- Source line 182: `Current market price: %f %s`. -/
  | currentMarketPrice (value : F64) (unit : String)
  /-- Source lines 194 and 201: `ERR: Unable to update rig Price. %v`. -/
  | errUpdate (err : Option String)
  /-- Source line 196: `Rig prince changed to newPrice: %f %s`. -/
  | changedToNewPrice (value : F64) (unit : String)
  /-- Source line 203: `: Unable to update rig Price. %v` (printed on success). -/
  | strayUpdate (err : Option String)
  /-- Source line 204: `Rig price changed to minPrice: %f %s`. -/
  | changedToMinPrice (value : F64) (unit : String)
  deriving DecidableEq

/-- The body lines that report an error (those whose text starts `ERR:`). -/
def Line.isErr : Line → Bool
  | .errRig _ _ => true
  | .errAlgorithm _ _ => true
  | .errMarketPrice _ => true
  | .errUpdate _ => true
  | _ => false

/-- Source: `type display struct { Header, Body, Footer []string }`. -/
structure display where
  Header : List Line
  Body : List Line
  Footer : List Line
  deriving DecidableEq

/-- Source: `func (d *display) ResetBody()`. -/
def display.ResetBody (d : display) : display :=
  { d with Body := [] }

/-- Source: `func (d *display) BodyAddLine(line string)`. -/
def display.BodyAddLine (d : display) (line : Line) : display :=
  { d with Body := d.Body ++ [line] }

/-- Source: `func (d *display) Refresh()`: the lines printed after the screen
is cleared: header, body, an empty line, footer. -/
def display.Refresh (d : display) : List Line :=
  d.Header ++ d.Body ++ [Line.text ""] ++ d.Footer

/-! ## Observable effects -/

/-- What the main loop does to the outside world, in order. -/
inductive Event
  /-- Call `btr.GetRig(id)`. -/
  | getRig (id : Nat)
  /-- Call `btr.GetAlgorithm(id)`. -/
  | getAlgorithm (id : Nat)
  /-- Call `btr.GetRigs(algo, status, page)`. -/
  | getRigs (algo : Nat) (status : String) (page : Nat)
  /-- Call `btr.UpdateRigPricePerSpeedUnit(id, price)`. -/
  | update (id : Nat) (price : F64)
  /-- Call `dsp.Refresh()`: the screen now shows `shown`. -/
  | refresh (shown : List Line)
  /-- Call `time.Sleep(seconds * time.Second)`. -/
  | sleep (seconds : Nat)
  deriving DecidableEq

/-- The event is a wait. -/
def Event.isSleep : Event → Bool
  | .sleep _ => true
  | _ => false

/-- The event is a price-update submission. -/
def Event.isUpdate : Event → Bool
  | .update _ _ => true
  | _ => false

/-- The event is a refresh whose printed lines contain `l`. -/
def Event.shows (l : Line) : Event → Bool
  | .refresh shown => decide (l ∈ shown)
  | _ => false

/-! ## getMarketPrice -/

/-- Source: the `for _, rig := range rigs` loop of `getMarketPrice`, started
with the named result `maketPrice` at its zero value. -/
def scanRigs (rigId : Nat) : List Rig → F64
  | [] => 0
  | rig :: rest => if rig.Id ≠ rigId then rig.Value else scanRigs rigId rest

/-- Source: `func getMarketPrice(algo uint32, rigId uint32, btr *betarigs.Betarigs)
(maketPrice float64, err error)`. -/
def getMarketPrice (algo : Nat) (rigId : Nat) (btr : Betarigs) : Except String F64 :=
  match btr.GetRigs algo "available" 1 with
  | .error err => .error err
  | .ok rigs =>
    if rigs.length = 0 then .ok 0
    else .ok (scanRigs rigId rigs)

/-! ## The pricing rule (source lines 186-207) -/

/-- What the pricing rule asks for. -/
inductive Action
  /-- No call to `UpdateRigPricePerSpeedUnit`. -/
  | hold
  /-- Source line 192: `UpdateRigPricePerSpeedUnit(rigId, newPrice)`. -/
  | setNewPrice (newPrice : F64)
  /-- Source line 199: `UpdateRigPricePerSpeedUnit(rigId, minPrice)`. -/
  | setMinPrice (minPrice : F64)
  deriving DecidableEq

/-- Source line 187: `newPrice := marketPrice + (priceDiff * marketPrice / 100)`. -/
def newPrice (marketPrice priceDiff : F64) : F64 :=
  marketPrice + (priceDiff * marketPrice / 100)

/-- Source line 191, second conjunct:
`math.Abs(newPrice*1000000-rig.Price.PerSpeedUnit.Value*1000000) > 1`. -/
def differs (price current : F64) : Prop :=
  F64.abs (price * 1000000 - current * 1000000) > 1

instance (price current : F64) : Decidable (differs price current) :=
  inferInstanceAs (Decidable (F64.abs (price * 1000000 - current * 1000000) > 1))

/-- Source lines 186-207: the nest of conditions that decides whether, and
with which price, `UpdateRigPricePerSpeedUnit` is called.  `current` is
`rig.Price.PerSpeedUnit.Value`; `F64.ne` is Go `!=`. -/
def pricingRule (current marketPrice minPrice priceDiff : F64) : Action :=
  if F64.ne marketPrice 0 = true ∧ F64.ne marketPrice current = true then
    if newPrice marketPrice priceDiff > minPrice
        ∧ differs (newPrice marketPrice priceDiff) current then
      .setNewPrice (newPrice marketPrice priceDiff)
    else if F64.ne current minPrice = true ∧ marketPrice < minPrice then
      .setMinPrice minPrice
    else
      .hold
  else
    .hold

/-- The price handed to `UpdateRigPricePerSpeedUnit`, if any. -/
def Action.submitted : Action → Option F64
  | .hold => none
  | .setNewPrice p => some p
  | .setMinPrice p => some p

/-! ## The main loop -/

/-- The display and the effects performed so far (oldest first). -/
structure State where
  dsp : display
  out : List Event

/-- Record one effect. -/
def State.emit (s : State) (e : Event) : State :=
  { s with out := s.out ++ [e] }

/-- Run `dsp.ResetBody()`. -/
def State.ResetBody (s : State) : State :=
  { s with dsp := s.dsp.ResetBody }

/-- Run `dsp.BodyAddLine(line)`. -/
def State.BodyAddLine (s : State) (line : Line) : State :=
  { s with dsp := s.dsp.BodyAddLine line }

/-- Run `dsp.Refresh()`. -/
def State.Refresh (s : State) : State :=
  s.emit (.refresh s.dsp.Refresh)

/-- Run `time.Sleep(seconds * time.Second)`. -/
def State.Sleep (s : State) (seconds : Nat) : State :=
  s.emit (.sleep seconds)

/-- Source lines 192-197 and 199-205: submit `price`, then add the outcome
line(s) to the body.  `onSuccess` are the lines of the `else` branch. -/
def submit (rigId : Int) (price : F64) (onSuccess : List Line) (btr : Betarigs)
    (s : State) : State :=
  let s := s.emit (.update (uint32 rigId) price)
  match btr.UpdateRigPricePerSpeedUnit (uint32 rigId) price with
  | (success, err) =>
    if err ≠ none ∨ !success then
      s.BodyAddLine (.errUpdate err)
    else
      onSuccess.foldl State.BodyAddLine s

/-- Source lines 159-209: one pass of the body of `for { ... }`, every
`continue` being the end of the pass. -/
def loopBody (rigId : Int) (minPrice priceDiff : F64) (btr : Betarigs) (s : State) : State :=
  let s := s.ResetBody
  let s := s.emit (.getRig (uint32 rigId))
  match btr.GetRig (uint32 rigId) with
  | .error err =>
    let s := s.BodyAddLine (.errRig rigId err)
    let s := s.Refresh
    s.Sleep mailLoopDuration
  | .ok rig =>
    let s := s.BodyAddLine (.currentRigPrice rig.Value rig.Unit)
    let s := s.emit (.getAlgorithm rig.AlgorithmId)
    match btr.GetAlgorithm rig.AlgorithmId with
    | .error err =>
      let s := s.BodyAddLine (.errAlgorithm rig.AlgorithmId err)
      let s := s.Refresh
      s.Sleep mailLoopDuration
    | .ok algo =>
      let s := s.emit (.getRigs rig.AlgorithmId "available" 1)
      match getMarketPrice rig.AlgorithmId (uint32 rigId) btr with
      | .error err =>
        let s := s.BodyAddLine (.errMarketPrice err)
        s.Sleep mailLoopDuration
      | .ok marketPrice =>
        let s := s.BodyAddLine (.currentMarketPrice marketPrice algo.MarketPriceUnit)
        let s :=
          match pricingRule rig.Value marketPrice minPrice priceDiff with
          | .hold => s
          | .setNewPrice p =>
            submit rigId p
              [.changedToNewPrice (newPrice marketPrice priceDiff) algo.MarketPriceUnit] btr s
          | .setMinPrice p =>
            submit rigId p
              [.strayUpdate none,
               .changedToMinPrice (newPrice marketPrice priceDiff) algo.MarketPriceUnit] btr s
        let s := s.Refresh
        s.Sleep mailLoopDuration

/-- The effects of one pass alone: the pass is run from a state without
recorded effects. -/
def passEvents (rigId : Int) (minPrice priceDiff : F64) (btr : Betarigs) (d : display) :
    List Event :=
  (loopBody rigId minPrice priceDiff btr ⟨d, []⟩).out

/-- Source: `for { ... }`, cut after as many passes as there are client
behaviours in the list (the loop itself never ends). -/
def mainLoop (rigId : Int) (minPrice priceDiff : F64) : List Betarigs → State → State
  | [], s => s
  | btr :: rest, s => mainLoop rigId minPrice priceDiff rest (loopBody rigId minPrice priceDiff btr s)

/-! ## Predicates and client behaviours used in the statements -/

/-- The events of the rule step of a pass: one update call or none. -/
def ruleEvents (rigId : Int) (a : Action) : List Event :=
  match a.submitted with
  | none => []
  | some p => [.update (uint32 rigId) p]

/-- A fetch of the pass fails: the rig fetch, or (the rig being fetched) the
algorithm fetch or the listing fetch behind the market price. -/
def fetchFails (rigId : Int) (btr : Betarigs) : Bool :=
  match btr.GetRig (uint32 rigId) with
  | .error _ => true
  | .ok rig =>
    (match btr.GetAlgorithm rig.AlgorithmId with
      | .error _ => true
      | .ok _ => false)
    || (match btr.GetRigs rig.AlgorithmId "available" 1 with
      | .error _ => true
      | .ok _ => false)

/-- The market fetch fails while the rig and algorithm fetches succeed. -/
def marketFetchFails (rigId : Int) (btr : Betarigs) : Bool :=
  match btr.GetRig (uint32 rigId) with
  | .error _ => false
  | .ok rig =>
    match btr.GetAlgorithm rig.AlgorithmId with
    | .error _ => false
    | .ok _ =>
      match btr.GetRigs rig.AlgorithmId "available" 1 with
      | .error _ => true
      | .ok _ => false

/-- A display with one header line and one footer line. -/
def dsp0 : display :=
  ⟨[.text "brAutoPrice"], [], [.text "Press enter to quit"]⟩

/-- Scenario 4 of the specification: the listing is
`[ownRig@0.002, otherRig@0.0035]`, the own rig has id 7. -/
def scenario4 : Betarigs where
  GetRig := fun _ => .error "unused"
  GetAlgorithm := fun _ => .error "unused"
  GetRigs := fun _ _ _ =>
    .ok [⟨7, 0.002, "BTC/Mh/day", 1⟩, ⟨8, 0.0035, "BTC/Mh/day", 1⟩]
  UpdateRigPricePerSpeedUnit := fun _ _ => (false, none)

/-- The rig fetch fails with "timeout"; the other calls would succeed. -/
def rigDown : Betarigs where
  GetRig := fun _ => .error "timeout"
  GetAlgorithm := fun _ => .ok ⟨"BTC/Mh/day"⟩
  GetRigs := fun _ _ _ => .ok []
  UpdateRigPricePerSpeedUnit := fun _ _ => (true, none)

/-- The listing call behind the market price fails, the rig and the algorithm
are fetched. -/
def marketDown : Betarigs where
  GetRig := fun _ => .ok ⟨7, 5, "BTC/Mh/day", 1⟩
  GetAlgorithm := fun _ => .ok ⟨"BTC/Mh/day"⟩
  GetRigs := fun _ _ _ => .error "timeout"
  UpdateRigPricePerSpeedUnit := fun _ _ => (true, none)

/-- Every call succeeds; the cheapest other rig is at the price of the own
rig, so the pricing rule holds. -/
def healthy : Betarigs where
  GetRig := fun _ => .ok ⟨7, 5, "BTC/Mh/day", 1⟩
  GetAlgorithm := fun _ => .ok ⟨"BTC/Mh/day"⟩
  GetRigs := fun _ _ _ => .ok [⟨7, 5, "BTC/Mh/day", 1⟩, ⟨8, 5, "BTC/Mh/day", 1⟩]
  UpdateRigPricePerSpeedUnit := fun _ _ => (true, none)

/-- Scenario 1 of the specification: the own rig (id 7) is listed at 0.0050,
the cheapest other rig at 0.0060. -/
def scenario1 : Betarigs where
  GetRig := fun _ => .ok ⟨7, 0.0050, "BTC/Mh/day", 1⟩
  GetAlgorithm := fun _ => .ok ⟨"BTC/Mh/day"⟩
  GetRigs := fun _ _ _ => .ok [⟨7, 0.0050, "BTC/Mh/day", 1⟩, ⟨8, 0.0060, "BTC/Mh/day", 1⟩]
  UpdateRigPricePerSpeedUnit := fun _ _ => (true, none)

/-- Scenario 2 of the specification: the own rig (id 7) is listed at 0.0010,
the cheapest other rig at 0.0005. -/
def scenario2 : Betarigs where
  GetRig := fun _ => .ok ⟨7, 0.0010, "BTC/Mh/day", 1⟩
  GetAlgorithm := fun _ => .ok ⟨"BTC/Mh/day"⟩
  GetRigs := fun _ _ _ => .ok [⟨8, 0.0005, "BTC/Mh/day", 1⟩, ⟨7, 0.0010, "BTC/Mh/day", 1⟩]
  UpdateRigPricePerSpeedUnit := fun _ _ => (true, none)

/-- Scenario 3 of the specification: the own rig (id 7) is listed at 0.0020,
the cheapest other rig at 0.0005. -/
def scenario3 : Betarigs where
  GetRig := fun _ => .ok ⟨7, 0.0020, "BTC/Mh/day", 1⟩
  GetAlgorithm := fun _ => .ok ⟨"BTC/Mh/day"⟩
  GetRigs := fun _ _ _ => .ok [⟨8, 0.0005, "BTC/Mh/day", 1⟩, ⟨7, 0.0020, "BTC/Mh/day", 1⟩]
  UpdateRigPricePerSpeedUnit := fun _ _ => (true, none)

/-- The own rig (id 7) is listed at 2 and no rig is available: the market
price is the no-signal value 0. -/
def noListing : Betarigs where
  GetRig := fun _ => .ok ⟨7, 2, "BTC/Mh/day", 1⟩
  GetAlgorithm := fun _ => .ok ⟨"BTC/Mh/day"⟩
  GetRigs := fun _ _ _ => .ok []
  UpdateRigPricePerSpeedUnit := fun _ _ => (true, none)

/-- The own rig (id 7) and the cheapest other rig are both listed at 0.5. -/
def sameAsMarket : Betarigs where
  GetRig := fun _ => .ok ⟨7, 0.5, "BTC/Mh/day", 1⟩
  GetAlgorithm := fun _ => .ok ⟨"BTC/Mh/day"⟩
  GetRigs := fun _ _ _ => .ok [⟨7, 0.5, "BTC/Mh/day", 1⟩, ⟨8, 0.5, "BTC/Mh/day", 1⟩]
  UpdateRigPricePerSpeedUnit := fun _ _ => (true, none)

/-- The own rig (id 7) is listed at 1 + 2^-20, the cheapest other rig at 0.5. -/
def nearFloor : Betarigs where
  GetRig := fun _ => .ok ⟨7, 1.00000095367431640625, "BTC/Mh/day", 1⟩
  GetAlgorithm := fun _ => .ok ⟨"BTC/Mh/day"⟩
  GetRigs := fun _ _ _ => .ok [⟨8, 0.5, "BTC/Mh/day", 1⟩]
  UpdateRigPricePerSpeedUnit := fun _ _ => (true, none)

/-- The own rig (id 7) is listed at 2, the cheapest other rig at 0.5. -/
def aboveFloor : Betarigs where
  GetRig := fun _ => .ok ⟨7, 2, "BTC/Mh/day", 1⟩
  GetAlgorithm := fun _ => .ok ⟨"BTC/Mh/day"⟩
  GetRigs := fun _ _ _ => .ok [⟨8, 0.5, "BTC/Mh/day", 1⟩]
  UpdateRigPricePerSpeedUnit := fun _ _ => (true, none)

/-! ## binary64: the facts used below -/

namespace F64

theorem add_def (a b : F64) : a + b = F64.add a b := rfl

theorem sub_def (a b : F64) : a - b = F64.add a (F64.neg b) := rfl

theorem mul_def (a b : F64) : a * b = F64.mul a b := rfl

theorem div_def (a b : F64) : a / b = F64.div a b := rfl

theorem lt_def (a b : F64) : a < b ↔ F64.lt a b = true := Iff.rfl

theorem le_def (a b : F64) : a ≤ b ↔ F64.le a b = true := Iff.rfl

/-- The constant `0` is `+0`. -/
theorem zero_eq : (0 : F64) = .fin false 0 0 := by decide!

/-- The constant `1`. -/
theorem one_eq : (1 : F64) = .fin false (2 ^ 52) 1022 := by decide!

/-- The constant `100`. -/
theorem hundred_eq : (100 : F64) = .fin false (100 * 2 ^ 46) 1028 := by decide!

/-- Go `a < b` gives `a <= b`. -/
theorem le_of_lt {a b : F64} (h : a < b) : a ≤ b := by
  rw [lt_def] at h
  rw [le_def, le, h]
  rfl

/-- A value something is smaller than is not NaN: it equals itself. -/
theorem eq_self_of_lt {a b : F64} (h : a < b) : F64.eq b b = true := by
  rw [lt_def] at h
  cases b with
  | nan => cases a <;> simp [lt] at h
  | inf n => simp [eq]
  | fin s m x => simp [eq]

/-- A value something is smaller than satisfies `b <= b`. -/
theorem le_self_of_lt {a b : F64} (h : a < b) : b ≤ b := by
  rw [le_def, le, eq_self_of_lt h, Bool.or_true]

/-- Go `a <= b` excludes `b < a`. -/
theorem not_lt_of_le {a b : F64} (h : a ≤ b) : ¬ b < a := by
  rw [le_def, le] at h
  rw [lt_def]
  cases a with
  | nan => simp [lt, eq] at h
  | inf n1 =>
    cases b with
    | nan => simp [lt, eq] at h
    | inf n2 => cases n1 <;> cases n2 <;> simp [lt, eq] at h ⊢
    | fin s m x => cases n1 <;> simp [lt, eq] at h ⊢
  | fin s1 m1 x1 =>
    cases b with
    | nan => simp [lt, eq] at h
    | inf n2 => cases n2 <;> simp [lt, eq] at h ⊢
    | fin s2 m2 x2 =>
      simp only [lt, eq, Bool.or_eq_true, decide_eq_true_eq] at h ⊢
      omega

/-- Go `a == b` makes `a != b` false. -/
theorem ne_eq_false_of_eq {a b : F64} (h : F64.eq a b = true) : F64.ne a b = false := by
  rw [ne, h]
  rfl

/-- Only NaN differs from itself. -/
theorem eq_nan_of_ne_self {a : F64} (h : F64.ne a a = true) : a = .nan := by
  cases a with
  | nan => rfl
  | inf n => simp [ne, eq] at h
  | fin s m x => simp [ne, eq] at h

/-- Nothing is above NaN. -/
theorem not_nan_gt (a : F64) : ¬ (F64.nan > a) := by
  show ¬ (F64.lt a .nan = true)
  cases a <;> simp [lt]

/-- The difference of a value with itself is `+0` or NaN. -/
theorem sub_self (a : F64) : a - a = .fin false 0 0 ∨ a - a = .nan := by
  rw [sub_def]
  cases a with
  | nan => right; rfl
  | inf n => right; cases n <;> rfl
  | fin s m x =>
    left
    have h : scaled s m x + scaled (!s) m x = 0 := by
      cases s <;> simp [scaled]
    simp [add, neg, h]

/-- The absolute value of `a - a` is not above 1. -/
theorem not_abs_sub_self_gt_one (a : F64) : ¬ (F64.abs (a - a) > 1) := by
  show ¬ (F64.lt 1 (F64.abs (a - a)) = true)
  rw [one_eq]
  rcases sub_self a with h | h <;> rw [h]
  · have hnn : (0 : Int) ≤ scaled false (2 ^ 52) 1022 := by
      simp only [scaled, Bool.false_eq_true, if_false]
      exact Int.natCast_nonneg _
    have hz : scaled false 0 0 = 0 := by
      simp only [scaled, Bool.false_eq_true, if_false, Nat.zero_mul, Int.ofNat_zero]
    simp only [abs, lt, decide_eq_true_eq, hz]
    omega
  · simp [abs, lt]

/-- The leading-bit position brackets its argument. -/
theorem log2_spec (k n : Nat) (h0 : 0 < n) (hlt : n < 2 ^ (2 ^ k)) :
    2 ^ log2 k n ≤ n ∧ n < 2 ^ (log2 k n + 1) := by
  induction k generalizing n with
  | zero =>
    simp only [pow_zero, pow_one] at hlt
    have : n = 1 := by omega
    subst this
    simp [log2]
  | succ k ih =>
    unfold log2
    by_cases hn : n < 2 ^ (2 ^ k)
    · rw [if_pos hn]
      exact ih n h0 hn
    · rw [if_neg hn]
      have hP : 0 < 2 ^ (2 ^ k) := Nat.pow_pos (by norm_num)
      have hge : 2 ^ (2 ^ k) ≤ n := Nat.le_of_not_lt hn
      have hq0 : 0 < n / 2 ^ (2 ^ k) := Nat.div_pos hge hP
      have hsq : (2 : Nat) ^ (2 ^ (k + 1)) = 2 ^ (2 ^ k) * 2 ^ (2 ^ k) := by
        rw [← pow_add]; congr 1; rw [pow_succ]; omega
      have hqlt : n / 2 ^ (2 ^ k) < 2 ^ (2 ^ k) := by
        rw [Nat.div_lt_iff_lt_mul hP]
        rw [hsq] at hlt
        exact hlt
      obtain ⟨hlo, hhi⟩ := ih (n / 2 ^ (2 ^ k)) hq0 hqlt
      constructor
      · rw [pow_add]
        calc 2 ^ (2 ^ k) * 2 ^ log2 k (n / 2 ^ (2 ^ k))
            ≤ 2 ^ (2 ^ k) * (n / 2 ^ (2 ^ k)) := Nat.mul_le_mul_left _ hlo
          _ ≤ n := Nat.mul_div_le n _
      · have h1 : n < 2 ^ (2 ^ k) * (n / 2 ^ (2 ^ k) + 1) := by
          have := Nat.lt_mul_div_succ n hP
          simpa [Nat.mul_comm] using this
        have h2 : n / 2 ^ (2 ^ k) + 1 ≤ 2 ^ (log2 k (n / 2 ^ (2 ^ k)) + 1) := hhi
        calc n < 2 ^ (2 ^ k) * (n / 2 ^ (2 ^ k) + 1) := h1
          _ ≤ 2 ^ (2 ^ k) * 2 ^ (log2 k (n / 2 ^ (2 ^ k)) + 1) := Nat.mul_le_mul_left _ h2
          _ = 2 ^ (2 ^ k + log2 k (n / 2 ^ (2 ^ k)) + 1) := by rw [← pow_add]; rfl

/-- The leading-bit position of a number between two consecutive powers of 2. -/
theorem log2_eq (k n e : Nat) (hlt : n < 2 ^ (2 ^ k)) (hlo : 2 ^ e ≤ n) (hhi : n < 2 ^ (e + 1)) :
    log2 k n = e := by
  have h0 : 0 < n := lt_of_lt_of_le (Nat.pow_pos (by norm_num)) hlo
  obtain ⟨h1, h2⟩ := log2_spec k n h0 hlt
  have ha : log2 k n < e + 1 :=
    (Nat.pow_lt_pow_iff_right (by norm_num : 1 < 2)).mp (lt_of_le_of_lt h1 hhi)
  have hb : e < log2 k n + 1 :=
    (Nat.pow_lt_pow_iff_right (by norm_num : 1 < 2)).mp (lt_of_le_of_lt hlo h2)
  omega

/-- Rounding changes nothing that is representable: a nonzero binary64 value
rounds to itself. -/
theorem round_binary64 (s : Bool) (m x : Nat) (hm : m ≠ 0)
    (hb : isBinary64 (.fin s m x) = true) : round s (m * 2 ^ x) 1 = .fin s m x := by
  simp only [isBinary64, Bool.and_eq_true, Bool.or_eq_true, decide_eq_true_eq] at hb
  obtain ⟨⟨hm53, hx⟩, hnorm⟩ := hb
  have hpx : 0 < 2 ^ x := Nat.pow_pos (by norm_num)
  have hn : m * 2 ^ x ≠ 0 := Nat.mul_ne_zero hm (Nat.pos_iff_ne_zero.mp hpx)
  have hbound : m * 2 ^ x < 2 ^ (2 ^ 16) := by
    calc m * 2 ^ x < 2 ^ 53 * 2 ^ x := Nat.mul_lt_mul_of_pos_right hm53 hpx
      _ = 2 ^ (53 + x) := (pow_add 2 53 x).symm
      _ ≤ 2 ^ (2 ^ 16) := Nat.pow_le_pow_right (by norm_num) (by norm_num; omega)
  have hlog : log2 16 (m * 2 ^ x) - 52 = x := by
    rcases hnorm with h52 | h0
    · have hlo : 2 ^ (52 + x) ≤ m * 2 ^ x := by
        rw [pow_add]; exact Nat.mul_le_mul_right _ h52
      have hhi : m * 2 ^ x < 2 ^ (52 + x + 1) := by
        have : 52 + x + 1 = 53 + x := by omega
        rw [this, pow_add]; exact Nat.mul_lt_mul_of_pos_right hm53 hpx
      rw [log2_eq 16 _ (52 + x) hbound hlo hhi]
      omega
    · subst h0
      by_cases h52 : 2 ^ 52 ≤ m
      · have hlo : 2 ^ 52 ≤ m * 2 ^ 0 := by simpa using h52
        have hhi : m * 2 ^ 0 < 2 ^ (52 + 1) := by simpa using hm53
        rw [log2_eq 16 _ 52 hbound hlo hhi]
      · have h0 : 0 < m * 2 ^ 0 := Nat.pos_of_ne_zero hn
        obtain ⟨h1, _⟩ := log2_spec 16 _ h0 hbound
        have hlt : 2 ^ log2 16 (m * 2 ^ 0) < 2 ^ 52 := by
          have : m * 2 ^ 0 < 2 ^ 52 := by simpa using Nat.lt_of_not_le h52
          exact lt_of_le_of_lt h1 this
        have := (Nat.pow_lt_pow_iff_right (by norm_num : 1 < 2)).mp hlt
        omega
  have hq : m * 2 ^ x / (1 * 2 ^ x) = m := by
    rw [one_mul]; exact Nat.mul_div_cancel m hpx
  have hr : m * 2 ^ x % (1 * 2 ^ x) = 0 := by
    rw [one_mul]; exact Nat.mul_mod_left m (2 ^ x)
  have hcond : ¬ (1 * 2 ^ x < 2 * 0 ∨ (2 * 0 = 1 * 2 ^ x ∧ m % 2 = 1)) := by
    rintro (h | ⟨h, _⟩) <;> omega
  have hm53ne : m ≠ 2 ^ 53 := Nat.ne_of_lt hm53
  have hx2045 : ¬ 2045 < x := by omega
  unfold round
  rw [if_neg hn]
  simp only [Nat.div_one, hlog, hq, hr, if_neg hcond, if_neg hm53ne, if_neg hx2045]

theorem scaled_zero (t : Bool) (x : Nat) : scaled t 0 x = 0 := by
  cases t <;> simp [scaled]

theorem scaled_eq_zero_iff (s : Bool) (m x : Nat) : scaled s m x = 0 ↔ m = 0 := by
  have hpx : 2 ^ x ≠ 0 := Nat.pos_iff_ne_zero.mp (Nat.pow_pos (by norm_num))
  cases s <;> simp [scaled, hpx]

theorem natAbs_scaled (s : Bool) (m x : Nat) : (scaled s m x).natAbs = m * 2 ^ x := by
  cases s <;> simp only [scaled, Bool.false_eq_true, if_false, if_true, Int.natAbs_neg,
    Int.natAbs_ofNat]

theorem scaled_neg_iff (s : Bool) (m x : Nat) (hm : m ≠ 0) :
    decide (scaled s m x < 0) = s := by
  have hpos : 0 < m * 2 ^ x := Nat.mul_pos (Nat.pos_of_ne_zero hm) (Nat.pow_pos (by norm_num))
  have hc : (0 : Int) < ((m * 2 ^ x : Nat) : Int) := Int.natCast_pos.mpr hpos
  cases s
  · simp only [scaled, Bool.false_eq_true, if_false, decide_eq_false_iff_not, not_lt]
    exact hc.le
  · simp only [scaled, if_true, decide_eq_true_eq]
    omega

/-- A value that Go `==` finds equal to 0 is a zero. -/
theorem eq_zero_cases {a : F64} (h : F64.eq a 0 = true) : ∃ t x, a = .fin t 0 x := by
  rw [zero_eq] at h
  cases a with
  | nan => simp [eq] at h
  | inf n => simp [eq] at h
  | fin t m x =>
    simp only [eq, decide_eq_true_eq, scaled_zero] at h
    exact ⟨t, x, by rw [(scaled_eq_zero_iff t m x).mp h]⟩

/-- A finite value that Go `!=` finds different from 0 has a nonzero mantissa. -/
theorem mantissa_ne_zero {s : Bool} {m x : Nat} (h : F64.ne (.fin s m x) 0 = true) : m ≠ 0 := by
  rw [zero_eq] at h
  intro hm
  subst hm
  simp [ne, eq, scaled_zero] at h

/-- Adding a zero to a nonzero binary64 value gives that value. -/
theorem add_zero_binary64 (s : Bool) (m x : Nat) (t : Bool) (hm : m ≠ 0)
    (hb : isBinary64 (.fin s m x) = true) :
    F64.add (.fin s m x) (.fin t 0 0) = .fin s m x := by
  have hne : ¬ scaled s m x + scaled t 0 0 = 0 := by
    rw [scaled_zero, add_zero, scaled_eq_zero_iff]
    exact hm
  simp only [add, if_neg hne]
  rw [scaled_zero, add_zero, scaled_neg_iff s m x hm, natAbs_scaled]
  exact round_binary64 s m x hm hb

/-- The product of a zero and a finite value is a zero. -/
theorem zero_mul_fin (t : Bool) (y : Nat) (s : Bool) (m x : Nat) :
    F64.mul (.fin t 0 y) (.fin s m x) = .fin (t != s) 0 0 := by
  show round (t != s) (0 * m * 2 ^ (y + x)) (2 ^ 1074) = _
  rw [Nat.zero_mul, Nat.zero_mul]
  rfl

/-- A zero divided by a nonzero finite value is a zero. -/
theorem zero_div_fin (t s : Bool) (m x : Nat) (hm : m ≠ 0) :
    F64.div (.fin t 0 0) (.fin s m x) = .fin (t != s) 0 0 := by
  simp only [div, if_neg hm, Nat.zero_mul, round, if_true]

/-- A zero divided by 100 is a zero. -/
theorem zero_div_hundred (t : Bool) : F64.div (.fin t 0 0) 100 = .fin t 0 0 := by
  rw [hundred_eq, zero_div_fin t false _ _ (by norm_num)]
  cases t <;> rfl

end F64

/-! ## The pricing rule: basic facts -/

/-- With an offset that Go `==` finds equal to 0, the candidate price of a
binary64 market price is the market price itself, unless it is NaN (as for an
infinite market price). -/
theorem newPrice_zero_offset (marketPrice priceDiff : F64)
    (hpd : F64.eq priceDiff 0 = true) (hb : marketPrice.isBinary64 = true)
    (h0 : F64.ne marketPrice 0 = true) (hnn : newPrice marketPrice priceDiff ≠ .nan) :
    newPrice marketPrice priceDiff = marketPrice := by
  obtain ⟨t, y, rfl⟩ := F64.eq_zero_cases hpd
  cases marketPrice with
  | nan => simp only [newPrice, F64.add_def, F64.add]
  | inf n =>
    exfalso
    apply hnn
    simp only [newPrice, F64.add_def, F64.mul_def, F64.div_def, F64.mul, if_true, F64.div,
      F64.add]
  | fin s m x =>
    have hm : m ≠ 0 := F64.mantissa_ne_zero h0
    simp only [newPrice, F64.add_def, F64.mul_def, F64.div_def]
    rw [F64.zero_mul_fin, F64.zero_div_hundred, F64.add_zero_binary64 s m x _ hm hb]

/-- The three outcomes of the rule, each with the conditions under which the
source reaches it. -/
theorem pricingRule_cases (current marketPrice minPrice priceDiff : F64) :
    (pricingRule current marketPrice minPrice priceDiff
        = .setNewPrice (newPrice marketPrice priceDiff)
      ∧ F64.ne marketPrice 0 = true ∧ F64.ne marketPrice current = true
      ∧ newPrice marketPrice priceDiff > minPrice
      ∧ differs (newPrice marketPrice priceDiff) current)
    ∨ (pricingRule current marketPrice minPrice priceDiff = .setMinPrice minPrice
      ∧ F64.ne marketPrice 0 = true ∧ F64.ne marketPrice current = true
      ∧ ¬ (newPrice marketPrice priceDiff > minPrice
            ∧ differs (newPrice marketPrice priceDiff) current)
      ∧ F64.ne current minPrice = true ∧ marketPrice < minPrice)
    ∨ (pricingRule current marketPrice minPrice priceDiff = .hold
      ∧ (¬ (F64.ne marketPrice 0 = true ∧ F64.ne marketPrice current = true)
        ∨ (¬ (newPrice marketPrice priceDiff > minPrice
              ∧ differs (newPrice marketPrice priceDiff) current)
          ∧ ¬ (F64.ne current minPrice = true ∧ marketPrice < minPrice)))) := by
  unfold pricingRule
  by_cases h1 : F64.ne marketPrice 0 = true ∧ F64.ne marketPrice current = true
  · by_cases h2 : newPrice marketPrice priceDiff > minPrice
        ∧ differs (newPrice marketPrice priceDiff) current
    · left
      rw [if_pos h1, if_pos h2]
      exact ⟨rfl, h1.1, h1.2, h2.1, h2.2⟩
    · by_cases h3 : F64.ne current minPrice = true ∧ marketPrice < minPrice
      · right; left
        rw [if_pos h1, if_neg h2, if_pos h3]
        exact ⟨rfl, h1.1, h1.2, h2, h3.1, h3.2⟩
      · right; right
        rw [if_pos h1, if_neg h2, if_neg h3]
        exact ⟨rfl, Or.inr ⟨h2, h3⟩⟩
  · right; right
    rw [if_neg h1]
    exact ⟨rfl, Or.inl h1⟩

/-- The rule holds as soon as its first test fails. -/
theorem pricingRule_hold_of_guard (current marketPrice minPrice priceDiff : F64)
    (h : ¬ (F64.ne marketPrice 0 = true ∧ F64.ne marketPrice current = true)) :
    pricingRule current marketPrice minPrice priceDiff = .hold := by
  unfold pricingRule
  rw [if_neg h]

/-- The rule holds when neither the candidate test nor the clamp test passes. -/
theorem pricingRule_hold_of_tests (current marketPrice minPrice priceDiff : F64)
    (h2 : ¬ (newPrice marketPrice priceDiff > minPrice
              ∧ differs (newPrice marketPrice priceDiff) current))
    (h3 : ¬ (F64.ne current minPrice = true ∧ marketPrice < minPrice)) :
    pricingRule current marketPrice minPrice priceDiff = .hold := by
  unfold pricingRule
  by_cases h1 : F64.ne marketPrice 0 = true ∧ F64.ne marketPrice current = true
  · rw [if_pos h1, if_neg h2, if_neg h3]
  · rw [if_neg h1]

/-- A price is within the tolerance of itself: `differs p p` never holds. -/
theorem not_differs_self (p : F64) : ¬ differs p p :=
  F64.not_abs_sub_self_gt_one (p * 1000000)

/-! ## Claims about the pricing rule -/

/-- C1: whatever price the pricing rule hands to `UpdateRigPricePerSpeedUnit`
is at least `minPrice`: either it comes from the candidate branch, is
`newPrice` and is strictly above `minPrice`, or it comes from the clamp
branch and is `minPrice` itself. -/
theorem submitted_ge_minPrice (current marketPrice minPrice priceDiff p : F64)
    (h : (pricingRule current marketPrice minPrice priceDiff).submitted = some p) :
    minPrice ≤ p
    ∧ ((pricingRule current marketPrice minPrice priceDiff = .setNewPrice p
          ∧ p = newPrice marketPrice priceDiff ∧ minPrice < p)
        ∨ (pricingRule current marketPrice minPrice priceDiff = .setMinPrice p
          ∧ p = minPrice)) := by
  rcases pricingRule_cases current marketPrice minPrice priceDiff with
    ⟨hr, _, _, hgt, _⟩ | ⟨hr, _, _, _, _, hlt⟩ | ⟨hr, _⟩
  · rw [hr] at h ⊢
    simp only [Action.submitted, Option.some.injEq] at h
    subst h
    exact ⟨F64.le_of_lt hgt, Or.inl ⟨rfl, rfl, hgt⟩⟩
  · rw [hr] at h ⊢
    simp only [Action.submitted, Option.some.injEq] at h
    subst h
    exact ⟨F64.le_self_of_lt hlt, Or.inr ⟨rfl, rfl⟩⟩
  · rw [hr] at h
    simp [Action.submitted] at h

/-- C1, on the candidate branch: current 5, market 6, floor 1, offset 0: the
price submitted is 6, above the floor 1. -/
theorem submitted_ge_minPrice_witness :
    (pricingRule 5 6 1 0).submitted = some 6
    ∧ (1 : F64) ≤ 6
    ∧ ((pricingRule 5 6 1 0 = .setNewPrice 6 ∧ (6 : F64) = newPrice 6 0 ∧ (1 : F64) < 6)
        ∨ (pricingRule 5 6 1 0 = .setMinPrice 6 ∧ (6 : F64) = 1)) :=
  ⟨by decide!, submitted_ge_minPrice 5 6 1 0 6 (by decide!)⟩

/-- C2: the pricing rule holds (submits nothing) when the market price is the
no-signal value 0, and when the market price equals the current price; more
generally whenever Go `==` finds the market price equal to 0 (so also for
`-0`) or equal to the current price. -/
theorem hold_on_no_signal_or_equal (current minPrice priceDiff : F64) :
    pricingRule current 0 minPrice priceDiff = .hold
    ∧ (pricingRule current 0 minPrice priceDiff).submitted = none
    ∧ pricingRule current current minPrice priceDiff = .hold
    ∧ (pricingRule current current minPrice priceDiff).submitted = none
    ∧ (∀ marketPrice, F64.eq marketPrice 0 = true →
        pricingRule current marketPrice minPrice priceDiff = .hold)
    ∧ (∀ marketPrice, F64.eq marketPrice current = true →
        pricingRule current marketPrice minPrice priceDiff = .hold) := by
  have hz : ∀ marketPrice, F64.eq marketPrice 0 = true →
      pricingRule current marketPrice minPrice priceDiff = .hold := by
    intro marketPrice he
    apply pricingRule_hold_of_guard
    rintro ⟨h, _⟩
    rw [F64.ne_eq_false_of_eq he] at h
    exact Bool.false_ne_true h
  have he : ∀ marketPrice, F64.eq marketPrice current = true →
      pricingRule current marketPrice minPrice priceDiff = .hold := by
    intro marketPrice he
    apply pricingRule_hold_of_guard
    rintro ⟨_, h⟩
    rw [F64.ne_eq_false_of_eq he] at h
    exact Bool.false_ne_true h
  have h0 : pricingRule current 0 minPrice priceDiff = .hold :=
    hz 0 (by decide!)
  have hc : pricingRule current current minPrice priceDiff = .hold := by
    by_cases hne : F64.ne current current = true
    · have hnan := F64.eq_nan_of_ne_self hne
      subst hnan
      apply pricingRule_hold_of_tests
      · rintro ⟨hgt, _⟩
        have hn : newPrice F64.nan priceDiff = F64.nan := by
          simp only [newPrice, F64.add_def, F64.add]
        rw [hn] at hgt
        exact F64.not_nan_gt minPrice hgt
      · rintro ⟨_, hlt⟩
        rw [F64.lt_def] at hlt
        simp [F64.lt] at hlt
    · exact pricingRule_hold_of_guard _ _ _ _ (fun h => hne h.2)
  rw [h0, hc]
  exact ⟨rfl, rfl, rfl, rfl, hz, he⟩

/-- C6, the code at the failing input (market 90, floor 95, offset 10,
candidate 90 + 10 * 90 / 100 = 99): from a current price of 50 the rule
submits 99; applied again with current = 99 it does not hold but submits the
floor 95; applied again with current = 95 it submits 99 again.  The rule
keeps updating at rest. -/
theorem churn_when_market_below_floor :
    newPrice 90 10 = 99
    ∧ pricingRule 50 90 95 10 = .setNewPrice 99
    ∧ pricingRule 99 90 95 10 = .setMinPrice 95
    ∧ pricingRule 99 90 95 10 ≠ .hold
    ∧ pricingRule 95 90 95 10 = .setNewPrice 99
    ∧ pricingRule 95 90 95 10 ≠ .hold := by
  decide!

/-- Outside the case `marketPrice < minPrice < newPrice`, the rule is at rest
after one update: applied again with the submitted price as current price,
it holds. -/
theorem rest_after_update (current marketPrice minPrice priceDiff p : F64)
    (hout : ¬ (marketPrice < minPrice ∧ minPrice < newPrice marketPrice priceDiff))
    (h : (pricingRule current marketPrice minPrice priceDiff).submitted = some p) :
    pricingRule p marketPrice minPrice priceDiff = .hold := by
  rcases pricingRule_cases current marketPrice minPrice priceDiff with
    ⟨hr, _, _, hgt, _⟩ | ⟨hr, _, _, _, _, hlt⟩ | ⟨hr, _⟩
  · rw [hr] at h
    simp only [Action.submitted, Option.some.injEq] at h
    subst h
    exact pricingRule_hold_of_tests _ _ _ _ (fun hc => not_differs_self _ hc.2)
      (fun hc => hout ⟨hc.2, hgt⟩)
  · rw [hr] at h
    simp only [Action.submitted, Option.some.injEq] at h
    subst h
    refine pricingRule_hold_of_tests _ _ _ _ (fun hc => hout ⟨hlt, hc.1⟩) (fun hc => ?_)
    have := F64.ne_eq_false_of_eq (F64.eq_self_of_lt hlt)
    rw [this] at hc
    exact Bool.false_ne_true hc.1
  · rw [hr] at h
    simp [Action.submitted] at h

/-- The model rounds where the source rounds.  At offset -50 the candidate
for a market price of 0.0007 is 0.00035000000000000005, above a floor of
0.00035, and is submitted; the products 0.000003 * 1000000 and
0.000002 * 1000000 round to 3 and 2, whose difference 1 is not above 1, so the
rule holds; the difference for 0.00000203 and 0.00000103 rounds to
1.0000000000000002 and the candidate is submitted; at offset 100 the candidate
for 0.0035 is 0.007000000000000001, above a floor of 0.007. -/
theorem rounding_examples :
    pricingRule 0.0056 0.0007 0.00035 (-50) = .setNewPrice 0.00035000000000000005
    ∧ (0.000003 : F64) * 1000000 - 0.000002 * 1000000 = 1
    ∧ pricingRule 0.000002 0.000003 0.000001 0 = .hold
    ∧ (0.00000203 : F64) * 1000000 - 0.00000103 * 1000000 = 1.0000000000000002
    ∧ pricingRule 0.00000103 0.00000203 0.000001 0 = .setNewPrice 0.00000203
    ∧ pricingRule 0.028 0.0035 0.007 100 = .setNewPrice 0.007000000000000001 := by
  decide!

/-! ## getMarketPrice -/

/-- The scan skips the rigs carrying the own id. -/
theorem scanRigs_append_own (rigId : Nat) (pre rest : List Rig)
    (hpre : ∀ x ∈ pre, x.Id = rigId) :
    scanRigs rigId (pre ++ rest) = scanRigs rigId rest := by
  induction pre with
  | nil => rfl
  | cons x xs ih =>
    have hx : x.Id = rigId := hpre x (List.mem_cons_self x xs)
    have hxs : ∀ y ∈ xs, y.Id = rigId := fun y hy => hpre y (List.mem_cons_of_mem x hy)
    simp only [List.cons_append, scanRigs, hx, ne_eq, not_true_eq_false, if_false]
    exact ih hxs

/-- The scan agrees with `List.find?` on "id different from the own id". -/
theorem scanRigs_eq_find (rigId : Nat) (rigs : List Rig) :
    scanRigs rigId rigs
      = ((rigs.find? (fun r => decide (r.Id ≠ rigId))).map Rig.Value).getD 0 := by
  induction rigs with
  | nil => rfl
  | cons x xs ih =>
    by_cases hx : x.Id = rigId
    · simp only [scanRigs, hx, ne_eq, not_true_eq_false, if_false, List.find?, decide_False]
      simpa [hx] using ih
    · simp [scanRigs, hx, List.find?]

/-- C3: when the listing call succeeds with `rigs`, `getMarketPrice` returns
the price of the first rig whose id differs from the own rig id (whatever
own-id rigs come before it), and 0 when every rig of the list carries the own
id, in particular when the list is empty. -/
theorem getMarketPrice_first_other (algo rigId : Nat) (btr : Betarigs) (rigs : List Rig)
    (hok : btr.GetRigs algo "available" 1 = .ok rigs) :
    (∀ pre r post, rigs = pre ++ r :: post → (∀ x ∈ pre, x.Id = rigId) → r.Id ≠ rigId →
        getMarketPrice algo rigId btr = .ok r.Value)
    ∧ ((∀ x ∈ rigs, x.Id = rigId) → getMarketPrice algo rigId btr = .ok 0)
    ∧ (rigs = [] → getMarketPrice algo rigId btr = .ok 0)
    ∧ getMarketPrice algo rigId btr
        = .ok (((rigs.find? (fun r => decide (r.Id ≠ rigId))).map Rig.Value).getD 0) := by
  have hscan : getMarketPrice algo rigId btr = .ok (scanRigs rigId rigs) := by
    unfold getMarketPrice
    rw [hok]
    cases rigs with
    | nil => rfl
    | cons x xs => simp
  refine ⟨?_, ?_, ?_, ?_⟩
  · intro pre r post hsplit hpre hr
    rw [hscan, hsplit, scanRigs_append_own rigId pre (r :: post) hpre]
    simp [scanRigs, hr]
  · intro hall
    have h := scanRigs_append_own rigId rigs [] hall
    rw [List.append_nil] at h
    rw [hscan, h]
    rfl
  · intro hnil
    rw [hscan, hnil]
    rfl
  · rw [hscan, scanRigs_eq_find]

/-- C3, scenario 4 of the specification: the own rig comes first at 0.002,
another rig follows at 0.0035: the market price is 0.0035. -/
theorem getMarketPrice_first_other_witness :
    getMarketPrice 1 7 scenario4 = .ok (0.0035) :=
  (getMarketPrice_first_other 1 7 scenario4
      [⟨7, 0.002, "BTC/Mh/day", 1⟩, ⟨8, 0.0035, "BTC/Mh/day", 1⟩] rfl).1
    [⟨7, 0.002, "BTC/Mh/day", 1⟩] ⟨8, 0.0035, "BTC/Mh/day", 1⟩ [] rfl
    (by simp) (by decide)

/-! ## The main loop -/

@[simp]
theorem out_emit (s : State) (e : Event) : (s.emit e).out = s.out ++ [e] := rfl

@[simp]
theorem out_ResetBody (s : State) : s.ResetBody.out = s.out := rfl

@[simp]
theorem out_BodyAddLine (s : State) (l : Line) : (s.BodyAddLine l).out = s.out := rfl

@[simp]
theorem out_Refresh (s : State) :
    s.Refresh.out = s.out ++ [.refresh s.dsp.Refresh] := rfl

@[simp]
theorem out_Sleep (s : State) (n : Nat) : (s.Sleep n).out = s.out ++ [.sleep n] := rfl

@[simp]
theorem dsp_emit (s : State) (e : Event) : (s.emit e).dsp = s.dsp := rfl

@[simp]
theorem dsp_ResetBody (s : State) : s.ResetBody.dsp = s.dsp.ResetBody := rfl

@[simp]
theorem dsp_BodyAddLine (s : State) (l : Line) :
    (s.BodyAddLine l).dsp = s.dsp.BodyAddLine l := rfl

@[simp]
theorem dsp_Refresh (s : State) : s.Refresh.dsp = s.dsp := rfl

@[simp]
theorem dsp_Sleep (s : State) (n : Nat) : (s.Sleep n).dsp = s.dsp := rfl

/-- Adding body lines performs no outside effect. -/
theorem out_foldl_BodyAddLine (ls : List Line) (s : State) :
    (ls.foldl State.BodyAddLine s).out = s.out := by
  induction ls generalizing s with
  | nil => rfl
  | cons l ls ih => simp only [List.foldl_cons, ih, out_BodyAddLine]

/-- A submission performs exactly one outside effect: the update call. -/
theorem out_submit (rigId : Int) (price : F64) (onSuccess : List Line) (btr : Betarigs)
    (s : State) :
    (submit rigId price onSuccess btr s).out = s.out ++ [.update (uint32 rigId) price] := by
  unfold submit
  simp only
  split
  · rfl
  · rw [out_foldl_BodyAddLine]; rfl

/-- The display after a submission depends on the display before only. -/
theorem dsp_submit_congr (rigId : Int) (price : F64) (onSuccess : List Line)
    (btr : Betarigs) (s t : State) (hst : s.dsp = t.dsp) :
    (submit rigId price onSuccess btr s).dsp = (submit rigId price onSuccess btr t).dsp := by
  unfold submit
  simp only
  split
  · simp only [dsp_BodyAddLine, dsp_emit, hst]
  · generalize hs : State.emit s (.update (uint32 rigId) price) = s1
    generalize ht : State.emit t (.update (uint32 rigId) price) = t1
    have hd : s1.dsp = t1.dsp := by rw [← hs, ← ht]; exact hst
    clear hs ht
    induction onSuccess generalizing s1 t1 with
    | nil => exact hd
    | cons l ls ih =>
      simp only [List.foldl_cons]
      apply ih
      simp only [dsp_BodyAddLine, hd]

/-- The events of one pass, path by path: the pass appends its events to the
ones already performed, ends with the wait, and, except when the market
fetch fails, refreshes the display with its final content just before. -/
theorem loopBody_paths (rigId : Int) (minPrice priceDiff : F64) (btr : Betarigs) (s : State) :
    ∃ evs, (loopBody rigId minPrice priceDiff btr s).out = s.out ++ (evs ++ [.sleep 30])
      ∧ ((∃ err, btr.GetRig (uint32 rigId) = .error err
            ∧ evs = [.getRig (uint32 rigId),
                .refresh (loopBody rigId minPrice priceDiff btr s).dsp.Refresh])
        ∨ (∃ rig err, btr.GetRig (uint32 rigId) = .ok rig
            ∧ btr.GetAlgorithm rig.AlgorithmId = .error err
            ∧ evs = [.getRig (uint32 rigId), .getAlgorithm rig.AlgorithmId,
                .refresh (loopBody rigId minPrice priceDiff btr s).dsp.Refresh])
        ∨ (∃ rig algo err, btr.GetRig (uint32 rigId) = .ok rig
            ∧ btr.GetAlgorithm rig.AlgorithmId = .ok algo
            ∧ getMarketPrice rig.AlgorithmId (uint32 rigId) btr = .error err
            ∧ evs = [.getRig (uint32 rigId), .getAlgorithm rig.AlgorithmId,
                .getRigs rig.AlgorithmId "available" 1])
        ∨ (∃ rig algo marketPrice, btr.GetRig (uint32 rigId) = .ok rig
            ∧ btr.GetAlgorithm rig.AlgorithmId = .ok algo
            ∧ getMarketPrice rig.AlgorithmId (uint32 rigId) btr = .ok marketPrice
            ∧ evs = [.getRig (uint32 rigId), .getAlgorithm rig.AlgorithmId,
                  .getRigs rig.AlgorithmId "available" 1]
                ++ ruleEvents rigId (pricingRule rig.Value marketPrice minPrice priceDiff)
                ++ [.refresh (loopBody rigId minPrice priceDiff btr s).dsp.Refresh])) := by
  cases h1 : btr.GetRig (uint32 rigId) with
  | error err =>
    refine ⟨_, ?_, Or.inl ⟨err, rfl, rfl⟩⟩
    simp [loopBody, h1, mailLoopDuration]
  | ok rig =>
    cases h2 : btr.GetAlgorithm rig.AlgorithmId with
    | error err =>
      refine ⟨_, ?_, Or.inr (Or.inl ⟨rig, err, rfl, h2, rfl⟩)⟩
      simp [loopBody, h1, h2, mailLoopDuration]
    | ok algo =>
      cases h3 : getMarketPrice rig.AlgorithmId (uint32 rigId) btr with
      | error err =>
        refine ⟨_, ?_, Or.inr (Or.inr (Or.inl ⟨rig, algo, err, rfl, h2, h3, rfl⟩))⟩
        simp [loopBody, h1, h2, h3, mailLoopDuration]
      | ok marketPrice =>
        refine ⟨_, ?_, Or.inr (Or.inr (Or.inr ⟨rig, algo, marketPrice, rfl, h2, h3, rfl⟩))⟩
        cases hr : pricingRule rig.Value marketPrice minPrice priceDiff with
        | hold =>
          simp [loopBody, h1, h2, h3, hr, mailLoopDuration, ruleEvents, Action.submitted]
        | setNewPrice p =>
          simp [loopBody, h1, h2, h3, hr, mailLoopDuration, ruleEvents, Action.submitted,
            out_submit]
        | setMinPrice p =>
          simp [loopBody, h1, h2, h3, hr, mailLoopDuration, ruleEvents, Action.submitted,
            out_submit]

/-- The display after a pass does not depend on the effects recorded before. -/
theorem loopBody_dsp (rigId : Int) (minPrice priceDiff : F64) (btr : Betarigs) (s : State) :
    (loopBody rigId minPrice priceDiff btr s).dsp
      = (loopBody rigId minPrice priceDiff btr ⟨s.dsp, []⟩).dsp := by
  cases h1 : btr.GetRig (uint32 rigId) with
  | error err => simp [loopBody, h1]
  | ok rig =>
    cases h2 : btr.GetAlgorithm rig.AlgorithmId with
    | error err => simp [loopBody, h1, h2]
    | ok algo =>
      cases h3 : getMarketPrice rig.AlgorithmId (uint32 rigId) btr with
      | error err => simp [loopBody, h1, h2, h3]
      | ok marketPrice =>
        cases hr : pricingRule rig.Value marketPrice minPrice priceDiff with
        | hold => simp [loopBody, h1, h2, h3, hr]
        | setNewPrice p =>
          simp only [loopBody, h1, h2, h3, hr, dsp_Sleep, dsp_Refresh]
          exact dsp_submit_congr rigId p _ btr _ _ rfl
        | setMinPrice p =>
          simp only [loopBody, h1, h2, h3, hr, dsp_Sleep, dsp_Refresh]
          exact dsp_submit_congr rigId p _ btr _ _ rfl

/-- A pass appends its own events to the ones already performed. -/
theorem loopBody_out (rigId : Int) (minPrice priceDiff : F64) (btr : Betarigs) (s : State) :
    (loopBody rigId minPrice priceDiff btr s).out
      = s.out ++ passEvents rigId minPrice priceDiff btr s.dsp := by
  unfold passEvents
  cases h1 : btr.GetRig (uint32 rigId) with
  | error err => simp [loopBody, h1]
  | ok rig =>
    cases h2 : btr.GetAlgorithm rig.AlgorithmId with
    | error err => simp [loopBody, h1, h2]
    | ok algo =>
      cases h3 : getMarketPrice rig.AlgorithmId (uint32 rigId) btr with
      | error err => simp [loopBody, h1, h2, h3]
      | ok marketPrice =>
        cases hr : pricingRule rig.Value marketPrice minPrice priceDiff with
        | hold => simp [loopBody, h1, h2, h3, hr]
        | setNewPrice p =>
          simp only [loopBody, h1, h2, h3, hr, out_Sleep, out_Refresh, out_submit,
            out_BodyAddLine, out_emit, out_ResetBody, List.nil_append, List.append_assoc,
            List.cons_append]
          refine congrArg (fun d => s.out ++ [_, _, _, _, Event.refresh (display.Refresh d), _]) ?_
          exact dsp_submit_congr rigId p _ btr _ _ rfl
        | setMinPrice p =>
          simp only [loopBody, h1, h2, h3, hr, out_Sleep, out_Refresh, out_submit,
            out_BodyAddLine, out_emit, out_ResetBody, List.nil_append, List.append_assoc,
            List.cons_append]
          refine congrArg (fun d => s.out ++ [_, _, _, _, Event.refresh (display.Refresh d), _]) ?_
          exact dsp_submit_congr rigId p _ btr _ _ rfl

/-- The rule step performs no wait. -/
theorem countP_isSleep_ruleEvents (rigId : Int) (a : Action) :
    (ruleEvents rigId a).countP Event.isSleep = 0 := by
  cases a <;> rfl

/-- A market price is only obtained from a successful listing call. -/
theorem getRigs_ok_of_getMarketPrice_ok (algo rigId : Nat) (btr : Betarigs) (m : F64)
    (h : getMarketPrice algo rigId btr = .ok m) :
    ∃ rigs, btr.GetRigs algo "available" 1 = .ok rigs := by
  unfold getMarketPrice at h
  cases hg : btr.GetRigs algo "available" 1 with
  | error err => rw [hg] at h; simp at h
  | ok rigs => exact ⟨rigs, rfl⟩

/-- C8: whatever the client returns, a pass appends its events to the ones
already performed, these events end with the 30-second wait and contain no
other wait; and when the rig fetch, the algorithm fetch or the market fetch
fails, they contain no price update. -/
theorem one_wait_per_pass (rigId : Int) (minPrice priceDiff : F64) (btr : Betarigs) (s : State) :
    (loopBody rigId minPrice priceDiff btr s).out
        = s.out ++ passEvents rigId minPrice priceDiff btr s.dsp
    ∧ (passEvents rigId minPrice priceDiff btr s.dsp).getLast? = some (.sleep 30)
    ∧ (passEvents rigId minPrice priceDiff btr s.dsp).countP Event.isSleep = 1
    ∧ (fetchFails rigId btr = true →
        (passEvents rigId minPrice priceDiff btr s.dsp).countP Event.isUpdate = 0) := by
  refine ⟨loopBody_out rigId minPrice priceDiff btr s, ?_⟩
  obtain ⟨evs, hout, hcase⟩ := loopBody_paths rigId minPrice priceDiff btr ⟨s.dsp, []⟩
  have hpe : passEvents rigId minPrice priceDiff btr s.dsp = evs ++ [.sleep 30] := by
    unfold passEvents
    rw [hout, List.nil_append]
  rw [hpe]
  refine ⟨by simp, ?_⟩
  rcases hcase with ⟨err, h1, he⟩ | ⟨rig, err, h1, h2, he⟩ | ⟨rig, algo, err, h1, h2, h3, he⟩
      | ⟨rig, algo, mp, h1, h2, h3, he⟩
  · subst he
    exact ⟨by simp [Event.isSleep], fun _ => by simp [Event.isUpdate]⟩
  · subst he
    exact ⟨by simp [Event.isSleep], fun _ => by simp [Event.isUpdate]⟩
  · subst he
    exact ⟨by simp [Event.isSleep], fun _ => by simp [Event.isUpdate]⟩
  · subst he
    refine ⟨by simp [Event.isSleep, countP_isSleep_ruleEvents], ?_⟩
    intro hf
    obtain ⟨rigs, h4⟩ := getRigs_ok_of_getMarketPrice_ok _ _ _ _ h3
    simp [fetchFails, h1, h2, h4] at hf

/-- C8, with a failing rig fetch: the pass is the rig fetch, a refresh and
the 30-second wait, without any update. -/
theorem one_wait_per_pass_witness :
    fetchFails 7 rigDown = true
    ∧ (loopBody 7 1 0 rigDown ⟨dsp0, []⟩).out = [] ++ passEvents 7 1 0 rigDown dsp0
    ∧ (passEvents 7 1 0 rigDown dsp0).getLast? = some (.sleep 30)
    ∧ (passEvents 7 1 0 rigDown dsp0).countP Event.isSleep = 1
    ∧ (fetchFails 7 rigDown = true →
        (passEvents 7 1 0 rigDown dsp0).countP Event.isUpdate = 0) :=
  ⟨rfl, one_wait_per_pass 7 1 0 rigDown ⟨dsp0, []⟩⟩

/-- The update calls of a pass are exactly the submissions of the pricing
rule, applied to the fetched rig price and the resolved market price. -/
theorem update_mem_passEvents_iff (rigId : Int) (minPrice priceDiff : F64) (btr : Betarigs)
    (d : display) (id : Nat) (p : F64) :
    Event.update id p ∈ passEvents rigId minPrice priceDiff btr d
      ↔ id = uint32 rigId ∧ ∃ rig algo marketPrice,
          btr.GetRig (uint32 rigId) = .ok rig
          ∧ btr.GetAlgorithm rig.AlgorithmId = .ok algo
          ∧ getMarketPrice rig.AlgorithmId (uint32 rigId) btr = .ok marketPrice
          ∧ (pricingRule rig.Value marketPrice minPrice priceDiff).submitted = some p := by
  obtain ⟨evs, hout, hcase⟩ := loopBody_paths rigId minPrice priceDiff btr ⟨d, []⟩
  have hpe : passEvents rigId minPrice priceDiff btr d = evs ++ [.sleep 30] := by
    unfold passEvents
    rw [hout, List.nil_append]
  rw [hpe]
  rcases hcase with ⟨err, h1, he⟩ | ⟨rig, err, h1, h2, he⟩ | ⟨rig, algo, err, h1, h2, h3, he⟩
      | ⟨rig, algo, mp, h1, h2, h3, he⟩
  · subst he
    simp [h1]
  · subst he
    simp [h1, h2]
  · subst he
    simp [h1, h2, h3]
  · subst he
    cases hr : pricingRule rig.Value mp minPrice priceDiff with
    | hold => simp [h1, h2, h3, hr, ruleEvents, Action.submitted]
    | setNewPrice q =>
      simp only [h1, h2, h3, hr, ruleEvents, Action.submitted, List.mem_append, List.mem_cons,
        List.mem_singleton, reduceCtorEq, Event.update.injEq, List.not_mem_nil, or_false,
        false_or, Except.ok.injEq, Option.some.injEq]
      constructor
      · rintro ⟨rfl, rfl⟩
        exact ⟨rfl, rig, algo, mp, rfl, h2, h3, by rw [hr]⟩
      · rintro ⟨rfl, rig1, algo1, mp1, e1, _, e3, e4⟩
        subst e1
        rw [h3] at e3
        simp only [Except.ok.injEq] at e3
        subst e3
        rw [hr] at e4
        simp only [Option.some.injEq] at e4
        exact ⟨rfl, e4.symm⟩
    | setMinPrice q =>
      simp only [h1, h2, h3, hr, ruleEvents, Action.submitted, List.mem_append, List.mem_cons,
        List.mem_singleton, reduceCtorEq, Event.update.injEq, List.not_mem_nil, or_false,
        false_or, Except.ok.injEq, Option.some.injEq]
      constructor
      · rintro ⟨rfl, rfl⟩
        exact ⟨rfl, rig, algo, mp, rfl, h2, h3, by rw [hr]⟩
      · rintro ⟨rfl, rig1, algo1, mp1, e1, _, e3, e4⟩
        subst e1
        rw [h3] at e3
        simp only [Except.ok.injEq] at e3
        subst e3
        rw [hr] at e4
        simp only [Option.some.injEq] at e4
        exact ⟨rfl, e4.symm⟩

/-- Every price a pass hands to `UpdateRigPricePerSpeedUnit` is at least
`minPrice`. -/
theorem update_price_ge_minPrice (rigId : Int) (minPrice priceDiff : F64) (btr : Betarigs)
    (d : display) (id : Nat) (p : F64)
    (h : Event.update id p ∈ passEvents rigId minPrice priceDiff btr d) : minPrice ≤ p := by
  obtain ⟨_, rig, _, mp, _, _, _, hs⟩ :=
    (update_mem_passEvents_iff rigId minPrice priceDiff btr d id p).mp h
  rcases pricingRule_cases rig.Value mp minPrice priceDiff with
    ⟨hr, _, _, hgt, _⟩ | ⟨hr, _, _, _, _, hlt⟩ | ⟨hr, _⟩
  · rw [hr] at hs
    simp only [Action.submitted, Option.some.injEq] at hs
    exact hs ▸ F64.le_of_lt hgt
  · rw [hr] at hs
    simp only [Action.submitted, Option.some.injEq] at hs
    exact hs ▸ F64.le_self_of_lt hlt
  · rw [hr] at hs
    simp [Action.submitted] at hs

/-- The update calls of a pass whose three fetches succeed are those of the
pricing rule: one call with the submitted price, or none. -/
theorem updates_of_pass (rigId : Int) (minPrice priceDiff : F64) (btr : Betarigs)
    (d : display) (rig : Rig) (algo : Algorithm) (marketPrice : F64)
    (hrig : btr.GetRig (uint32 rigId) = .ok rig)
    (halgo : btr.GetAlgorithm rig.AlgorithmId = .ok algo)
    (hmarket : getMarketPrice rig.AlgorithmId (uint32 rigId) btr = .ok marketPrice) :
    (passEvents rigId minPrice priceDiff btr d).filter Event.isUpdate
      = ruleEvents rigId (pricingRule rig.Value marketPrice minPrice priceDiff) := by
  obtain ⟨evs, hout, hcase⟩ := loopBody_paths rigId minPrice priceDiff btr ⟨d, []⟩
  have hpe : passEvents rigId minPrice priceDiff btr d = evs ++ [.sleep 30] := by
    unfold passEvents
    rw [hout, List.nil_append]
  rw [hpe]
  rcases hcase with ⟨err, h1, _⟩ | ⟨rig1, err, h1, h2, _⟩ | ⟨rig1, algo1, err, h1, h2, h3, _⟩
      | ⟨rig1, algo1, mp, h1, h2, h3, he⟩
  · rw [hrig] at h1
    simp at h1
  · rw [hrig] at h1
    simp only [Except.ok.injEq] at h1
    subst h1
    rw [halgo] at h2
    simp at h2
  · rw [hrig] at h1
    simp only [Except.ok.injEq] at h1
    subst h1
    rw [hmarket] at h3
    simp at h3
  · rw [hrig] at h1
    simp only [Except.ok.injEq] at h1
    subst h1
    rw [hmarket] at h3
    simp only [Except.ok.injEq] at h3
    subst h3
    subst he
    cases hr : pricingRule rig.Value marketPrice minPrice priceDiff <;>
      simp [ruleEvents, Action.submitted, Event.isUpdate]

/-- C10, the code at the failing input (rig 7, floor 1, offset 0; the rig and
algorithm fetches succeed, the listing call fails with "timeout"): the pass
adds the error line to the body and then waits without any refresh, so no
refresh of the pass shows the line; the next pass starts by clearing the body,
so the line is never shown at all. -/
theorem market_error_not_shown :
    getMarketPrice 1 (uint32 7) marketDown = .error "timeout"
    ∧ (loopBody 7 1 0 marketDown ⟨dsp0, []⟩).dsp.Body
        = [.currentRigPrice 5 "BTC/Mh/day", .errMarketPrice "timeout"]
    ∧ (loopBody 7 1 0 marketDown ⟨dsp0, []⟩).dsp.Body.filter Line.isErr
        = [.errMarketPrice "timeout"]
    ∧ passEvents 7 1 0 marketDown dsp0
        = [.getRig 7, .getAlgorithm 1, .getRigs 1 "available" 1, .sleep 30]
    ∧ (passEvents 7 1 0 marketDown dsp0).any (Event.shows (.errMarketPrice "timeout")) = false
    ∧ (mainLoop 7 1 0 [marketDown, healthy] ⟨dsp0, []⟩).out
        = [.getRig 7, .getAlgorithm 1, .getRigs 1 "available" 1, .sleep 30,
           .getRig 7, .getAlgorithm 1, .getRigs 1 "available" 1,
           .refresh [.text "brAutoPrice", .currentRigPrice 5 "BTC/Mh/day",
             .currentMarketPrice 5 "BTC/Mh/day", .text "", .text "Press enter to quit"],
           .sleep 30]
    ∧ ((mainLoop 7 1 0 [marketDown, healthy] ⟨dsp0, []⟩).out).any
        (Event.shows (.errMarketPrice "timeout")) = false := by
  refine ⟨rfl, ?_⟩
  decide!

/-- Unless the market fetch fails, every line of the body at the end of a
pass, error lines included, is on the screen: a refresh of the pass shows
it. -/
theorem body_shown_unless_market_fails (rigId : Int) (minPrice priceDiff : F64)
    (btr : Betarigs) (s : State) (hm : marketFetchFails rigId btr = false)
    (l : Line) (hl : l ∈ (loopBody rigId minPrice priceDiff btr s).dsp.Body) :
    (passEvents rigId minPrice priceDiff btr s.dsp).any (Event.shows l) = true := by
  obtain ⟨evs, hout, hcase⟩ := loopBody_paths rigId minPrice priceDiff btr ⟨s.dsp, []⟩
  have hpe : passEvents rigId minPrice priceDiff btr s.dsp = evs ++ [.sleep 30] := by
    unfold passEvents
    rw [hout, List.nil_append]
  have hd := loopBody_dsp rigId minPrice priceDiff btr s
  have hshown : Event.shows l
      (.refresh (loopBody rigId minPrice priceDiff btr ⟨s.dsp, []⟩).dsp.Refresh) = true := by
    rw [← hd]
    simp [Event.shows, display.Refresh, hl]
  rw [hpe]
  rcases hcase with ⟨err, h1, he⟩ | ⟨rig, err, h1, h2, he⟩ | ⟨rig, algo, err, h1, h2, h3, he⟩
      | ⟨rig, algo, mp, h1, h2, h3, he⟩
  · subst he
    simp [hshown]
  · subst he
    simp [hshown]
  · exfalso
    unfold getMarketPrice at h3
    cases h4 : btr.GetRigs rig.AlgorithmId "available" 1 with
    | error e => simp [marketFetchFails, h1, h2, h4] at hm
    | ok rigs =>
      rw [h4] at h3
      by_cases hlen : rigs.length = 0 <;> simp [hlen] at h3
  · subst he
    simp [hshown]

/-! ## Claims about the update call of a pass -/

/-- C4: in a pass whose fetches give the current price `rig.Value` and the
market price `marketPrice`, past the first test (market price neither 0 nor
the current price for Go `!=`), when the candidate the code computes is above
`minPrice` and passes the code's tolerance test, the pass calls
`UpdateRigPricePerSpeedUnit` exactly once, with that candidate
`marketPrice + (priceDiff * marketPrice / 100)`; with an offset equal to 0
the price submitted is the market price itself. -/
theorem candidate_submitted (rigId : Int) (minPrice priceDiff : F64) (btr : Betarigs)
    (d : display) (rig : Rig) (algo : Algorithm) (marketPrice : F64)
    (hrig : btr.GetRig (uint32 rigId) = .ok rig)
    (halgo : btr.GetAlgorithm rig.AlgorithmId = .ok algo)
    (hmarket : getMarketPrice rig.AlgorithmId (uint32 rigId) btr = .ok marketPrice)
    (h0 : F64.ne marketPrice 0 = true) (hne : F64.ne marketPrice rig.Value = true)
    (hgt : marketPrice + (priceDiff * marketPrice / 100) > minPrice)
    (hd : F64.abs ((marketPrice + (priceDiff * marketPrice / 100)) * 1000000
            - rig.Value * 1000000) > 1) :
    pricingRule rig.Value marketPrice minPrice priceDiff
        = .setNewPrice (marketPrice + (priceDiff * marketPrice / 100))
    ∧ (passEvents rigId minPrice priceDiff btr d).filter Event.isUpdate
        = [.update (uint32 rigId) (marketPrice + (priceDiff * marketPrice / 100))]
    ∧ (F64.eq priceDiff 0 = true → marketPrice.isBinary64 = true →
        marketPrice > minPrice
        ∧ pricingRule rig.Value marketPrice minPrice priceDiff = .setNewPrice marketPrice
        ∧ (passEvents rigId minPrice priceDiff btr d).filter Event.isUpdate
            = [.update (uint32 rigId) marketPrice]) := by
  have hr : pricingRule rig.Value marketPrice minPrice priceDiff
      = .setNewPrice (newPrice marketPrice priceDiff) := by
    unfold pricingRule
    rw [if_pos ⟨h0, hne⟩, if_pos ⟨hgt, hd⟩]
  have hu : (passEvents rigId minPrice priceDiff btr d).filter Event.isUpdate
      = [.update (uint32 rigId) (newPrice marketPrice priceDiff)] := by
    rw [updates_of_pass rigId minPrice priceDiff btr d rig algo marketPrice hrig halgo hmarket,
      hr]
    rfl
  refine ⟨hr, hu, ?_⟩
  intro hpd hb
  have hnn : newPrice marketPrice priceDiff ≠ .nan := by
    intro hn
    have hgt2 : newPrice marketPrice priceDiff > minPrice := hgt
    rw [hn] at hgt2
    exact F64.not_nan_gt minPrice hgt2
  have hm : newPrice marketPrice priceDiff = marketPrice :=
    newPrice_zero_offset marketPrice priceDiff hpd hb h0 hnn
  have hgt2 : newPrice marketPrice priceDiff > minPrice := hgt
  rw [hm] at hr hu hgt2
  exact ⟨hgt2, hr, hu⟩

/-- C4, scenario 1 of the specification: current 0.0050, market 0.0060,
floor 0.0010, offset 0: the pass submits 0.0060. -/
theorem candidate_submitted_witness :
    pricingRule 0.0050 0.0060 0.0010 0 = .setNewPrice 0.0060
    ∧ (passEvents 7 0.0010 0 scenario1 dsp0).filter Event.isUpdate
        = [.update (uint32 7) 0.0060] :=
  ((candidate_submitted 7 0.0010 0 scenario1 dsp0 ⟨7, 0.0050, "BTC/Mh/day", 1⟩
      ⟨"BTC/Mh/day"⟩ 0.0060 rfl rfl rfl (by decide!) (by decide!) (by decide!)
      (by decide!)).2.2 (by decide!) (by decide!)).2

/-- C5 as stated fails: with `marketPrice < minPrice`, `current != minPrice`
and the candidate test false, the rule still holds, and the pass makes no
update call, when the market price is 0 (first input: current 2, no rig
listed so market 0, floor 1, offset 0) and when the market price equals the
current price (second input: current 0.5, market 0.5, floor 1, offset 0); the
first test of the rule comes before the clamp. -/
theorem clamp_unconditional_counterexample :
    ((0 : F64) < 1 ∧ F64.ne 2 1 = true
      ∧ ¬ ((0 : F64) + (0 * 0 / 100) > 1
            ∧ F64.abs (((0 : F64) + (0 * 0 / 100)) * 1000000 - 2 * 1000000) > 1)
      ∧ pricingRule 2 0 1 0 = .hold
      ∧ pricingRule 2 0 1 0 ≠ .setMinPrice 1
      ∧ (passEvents 7 1 0 noListing dsp0).filter Event.isUpdate = [])
    ∧ ((0.5 : F64) < 1 ∧ F64.ne 0.5 1 = true
      ∧ ¬ ((0.5 : F64) + (0 * 0.5 / 100) > 1
            ∧ F64.abs (((0.5 : F64) + (0 * 0.5 / 100)) * 1000000 - 0.5 * 1000000) > 1)
      ∧ pricingRule 0.5 0.5 1 0 = .hold
      ∧ pricingRule 0.5 0.5 1 0 ≠ .setMinPrice 1
      ∧ (passEvents 7 1 0 sameAsMarket dsp0).filter Event.isUpdate = []) := by
  decide!

/-- C5, amended: in a pass whose fetches give the current price `rig.Value`
and the market price `marketPrice`, past the first test (market price neither
0 nor the current price for Go `!=`), with the market price below `minPrice`,
the current price different from `minPrice` and the candidate test of the code
false, the pass calls `UpdateRigPricePerSpeedUnit` exactly once, with
`minPrice`, whatever `priceDiff` is. -/
theorem clamp_to_minPrice (rigId : Int) (minPrice priceDiff : F64) (btr : Betarigs)
    (d : display) (rig : Rig) (algo : Algorithm) (marketPrice : F64)
    (hrig : btr.GetRig (uint32 rigId) = .ok rig)
    (halgo : btr.GetAlgorithm rig.AlgorithmId = .ok algo)
    (hmarket : getMarketPrice rig.AlgorithmId (uint32 rigId) btr = .ok marketPrice)
    (h0 : F64.ne marketPrice 0 = true) (hne : F64.ne marketPrice rig.Value = true)
    (hlt : marketPrice < minPrice) (hcur : F64.ne rig.Value minPrice = true)
    (h3 : ¬ (marketPrice + (priceDiff * marketPrice / 100) > minPrice
              ∧ F64.abs ((marketPrice + (priceDiff * marketPrice / 100)) * 1000000
                  - rig.Value * 1000000) > 1)) :
    pricingRule rig.Value marketPrice minPrice priceDiff = .setMinPrice minPrice
    ∧ (passEvents rigId minPrice priceDiff btr d).filter Event.isUpdate
        = [.update (uint32 rigId) minPrice] := by
  have h3d : ¬ (newPrice marketPrice priceDiff > minPrice
      ∧ differs (newPrice marketPrice priceDiff) rig.Value) := h3
  have hr : pricingRule rig.Value marketPrice minPrice priceDiff = .setMinPrice minPrice := by
    unfold pricingRule
    rw [if_pos ⟨h0, hne⟩, if_neg h3d, if_pos ⟨hcur, hlt⟩]
  refine ⟨hr, ?_⟩
  rw [updates_of_pass rigId minPrice priceDiff btr d rig algo marketPrice hrig halgo hmarket, hr]
  rfl

/-- C5, scenario 3 of the specification: current 0.0020, market 0.0005,
floor 0.0010, offset 0: the pass submits 0.0010. -/
theorem clamp_to_minPrice_witness :
    pricingRule 0.0020 0.0005 0.0010 0 = .setMinPrice 0.0010
    ∧ (passEvents 7 0.0010 0 scenario3 dsp0).filter Event.isUpdate
        = [.update (uint32 7) 0.0010] :=
  clamp_to_minPrice 7 0.0010 0 scenario3 dsp0 ⟨7, 0.0020, "BTC/Mh/day", 1⟩
    ⟨"BTC/Mh/day"⟩ 0.0005 rfl rfl rfl (by decide!) (by decide!) (by decide!) (by decide!)
    (by decide!)

/-- C7 as stated fails on the clamp branch (current 1 + 2^-20, market 0.5,
floor 1, offset 0): the pass submits the floor 1 although
`|1 * 1000000 - current * 1000000| = 0.95367431640625` is not above 1. -/
theorem clamp_within_tolerance_counterexample :
    pricingRule 1.00000095367431640625 0.5 1 0 = .setMinPrice 1
    ∧ (pricingRule 1.00000095367431640625 0.5 1 0).submitted = some 1
    ∧ (passEvents 7 1 0 nearFloor dsp0).filter Event.isUpdate = [.update 7 1]
    ∧ F64.abs ((1 : F64) * 1000000 - 1.00000095367431640625 * 1000000) = 0.95367431640625
    ∧ ¬ (F64.abs ((1 : F64) * 1000000 - 1.00000095367431640625 * 1000000) > 1) := by
  decide!

/-- C7, amended: in a pass whose fetches give the current price `rig.Value`
and the market price `marketPrice`, every price handed to
`UpdateRigPricePerSpeedUnit` either comes from the candidate branch and passes
the tolerance test of the code against the current price, or comes from the
clamp branch, is `minPrice`, and the current price differs from it for Go `!=`
(no tolerance there). -/
theorem submitted_differs (rigId : Int) (minPrice priceDiff : F64) (btr : Betarigs)
    (d : display) (rig : Rig) (marketPrice : F64)
    (hrig : btr.GetRig (uint32 rigId) = .ok rig)
    (hmarket : getMarketPrice rig.AlgorithmId (uint32 rigId) btr = .ok marketPrice)
    (id : Nat) (p : F64)
    (h : Event.update id p ∈ passEvents rigId minPrice priceDiff btr d) :
    (pricingRule rig.Value marketPrice minPrice priceDiff = .setNewPrice p
        ∧ F64.abs (p * 1000000 - rig.Value * 1000000) > 1)
    ∨ (pricingRule rig.Value marketPrice minPrice priceDiff = .setMinPrice p
        ∧ p = minPrice ∧ F64.ne rig.Value minPrice = true) := by
  obtain ⟨_, rig1, _, mp, h1, _, h3, hs⟩ :=
    (update_mem_passEvents_iff rigId minPrice priceDiff btr d id p).mp h
  rw [hrig] at h1
  simp only [Except.ok.injEq] at h1
  subst h1
  rw [hmarket] at h3
  simp only [Except.ok.injEq] at h3
  subst h3
  rcases pricingRule_cases rig.Value marketPrice minPrice priceDiff with
    ⟨hr, _, _, _, hd⟩ | ⟨hr, _, _, _, hcur, _⟩ | ⟨hr, _⟩
  · rw [hr] at hs ⊢
    simp only [Action.submitted, Option.some.injEq] at hs
    subst hs
    exact Or.inl ⟨rfl, hd⟩
  · rw [hr] at hs ⊢
    simp only [Action.submitted, Option.some.injEq] at hs
    subst hs
    exact Or.inr ⟨rfl, rfl, hcur⟩
  · rw [hr] at hs
    simp [Action.submitted] at hs

/-- C7, amended, on the clamp branch: current 2, market 0.5, floor 1,
offset 0: the pass submits 1, and 2 differs from 1. -/
theorem submitted_differs_witness :
    Event.update 7 1 ∈ passEvents 7 1 0 aboveFloor dsp0
    ∧ ((pricingRule 2 0.5 1 0 = .setNewPrice 1
          ∧ F64.abs ((1 : F64) * 1000000 - 2 * 1000000) > 1)
        ∨ (pricingRule 2 0.5 1 0 = .setMinPrice 1 ∧ (1 : F64) = 1 ∧ F64.ne 2 1 = true)) :=
  ⟨by decide!, submitted_differs 7 1 0 aboveFloor dsp0 ⟨7, 2, "BTC/Mh/day", 1⟩ 0.5 rfl rfl
    7 1 (by decide!)⟩

/-- C9: in a pass whose fetches give the current price `rig.Value` and the
market price `marketPrice`, past the first test (market price neither 0 nor
the current price for Go `!=`), when the candidate the code computes is not
above `minPrice` (Go `<=`) and the current price equals `minPrice` or the
market price is not below `minPrice` (Go `>=`), the rule holds and the pass
makes no update call, although current and market differ. -/
theorem hold_at_or_below_floor (rigId : Int) (minPrice priceDiff : F64) (btr : Betarigs)
    (d : display) (rig : Rig) (algo : Algorithm) (marketPrice : F64)
    (hrig : btr.GetRig (uint32 rigId) = .ok rig)
    (halgo : btr.GetAlgorithm rig.AlgorithmId = .ok algo)
    (hmarket : getMarketPrice rig.AlgorithmId (uint32 rigId) btr = .ok marketPrice)
    (_h0 : F64.ne marketPrice 0 = true) (_hne : F64.ne marketPrice rig.Value = true)
    (hle : marketPrice + (priceDiff * marketPrice / 100) ≤ minPrice)
    (hor : F64.eq rig.Value minPrice = true ∨ marketPrice ≥ minPrice) :
    pricingRule rig.Value marketPrice minPrice priceDiff = .hold
    ∧ (pricingRule rig.Value marketPrice minPrice priceDiff).submitted = none
    ∧ (passEvents rigId minPrice priceDiff btr d).filter Event.isUpdate = [] := by
  have hr : pricingRule rig.Value marketPrice minPrice priceDiff = .hold := by
    apply pricingRule_hold_of_tests
    · exact fun hc => F64.not_lt_of_le hle hc.1
    · rintro ⟨hc, hlt⟩
      rcases hor with heq | hge
      · rw [F64.ne_eq_false_of_eq heq] at hc
        exact Bool.false_ne_true hc
      · exact F64.not_lt_of_le hge hlt
  refine ⟨hr, by rw [hr]; rfl, ?_⟩
  rw [updates_of_pass rigId minPrice priceDiff btr d rig algo marketPrice hrig halgo hmarket, hr]
  rfl

/-- C9, scenario 2 of the specification: current 0.0010, market 0.0005,
floor 0.0010, offset 0: the rule holds and the pass makes no update call. -/
theorem hold_at_or_below_floor_witness :
    pricingRule 0.0010 0.0005 0.0010 0 = .hold
    ∧ (pricingRule 0.0010 0.0005 0.0010 0).submitted = none
    ∧ (passEvents 7 0.0010 0 scenario2 dsp0).filter Event.isUpdate = [] :=
  hold_at_or_below_floor 7 0.0010 0 scenario2 dsp0 ⟨7, 0.0010, "BTC/Mh/day", 1⟩
    ⟨"BTC/Mh/day"⟩ 0.0005 rfl rfl rfl (by decide!) (by decide!) (by decide!)
    (Or.inl (by decide!))

end BrAutoprice
